import Mathlib

/-!
# Verification of the moving-average-crossover backtesting engine

Shallow embedding of the strategy code in `src/streamlit_app.py`
(`MovingAverageCross.__init__` / `MovingAverageCross.next` and the run
plumbing around `cerebro.run()`).

Prices are modelled as exact rationals (`ℚ`).  Bar dates are integers; the
strategy code only ever copies the current bar's date into the emitted
message, it never compares dates.

Two parts of the behaviour live in library code (backtrader) rather than in
`src/` and are modelled from the spec where so marked:
* the `SimpleMovingAverage` indicator (spec §4.1: trailing buffer of the
  most recent `period` closes, value undefined until warm, then the
  arithmetic mean), together with backtrader's minimum-period rule that
  `next()` only runs once every indicator is warm;
* order fills (spec §4.4: "Orders are assumed to fill at the same bar's
  closing price"), so `buy()` / `sell()` change the position immediately.
-/

namespace Trading

/-- BUY / SELL, the two actions the strategy emits. -/
inductive Action where
  | buy
  | sell
deriving DecidableEq, Repr

/-- One emitted message, `f"BUY on {current_date} at {current_close}"` or the
SELL analogue: the bar's date, the action, and the bar's closing price. -/
structure SignalEvent where
  date : Int
  action : Action
  price : ℚ
deriving DecidableEq, Repr

/-- One price bar as the strategy sees it: `self.data.datetime.date(0)` and
`self.data.close[0]`.  The other OHLCV fields are never read by the code. -/
structure PriceBar where
  date : Int
  close : ℚ
deriving DecidableEq, Repr

/-- The mutable state the strategy code touches while running:
`st.session_state.messages` (the session-scoped message list) and the
broker position size (`self.position`; `buy()` adds one unit, `sell()`
removes one). -/
structure EngineState where
  messages : List SignalEvent
  pos : Int
deriving DecidableEq, Repr

/-- Modelled from the spec: `bt.indicators.SimpleMovingAverage` is backtrader
library code, not in `src/`.  Spec §3/§4.1: a trailing buffer of up to
`period` most recent closes, oldest evicted on overflow.  `maPush` feeds one
close into the buffer. -/
def maPush (period : Nat) (buf : List ℚ) (close : ℚ) : List ℚ :=
  ((buf ++ [close]).drop ((buf ++ [close]).length - period))

/-- The buffer after feeding a whole list of closes, oldest first. -/
def maBuffer (period : Nat) (closes : List ℚ) : List ℚ :=
  closes.foldl (maPush period) []

/-- Modelled from the spec: §4.1, the indicator's output is UNDEFINED (not
zero) until the buffer holds exactly `period` closes, and the arithmetic
mean of the buffer afterwards. -/
def maValue (period : Nat) (buf : List ℚ) : Option ℚ :=
  if buf.length = period then some (buf.sum / (period : ℚ)) else none

/-- The moving-average value the strategy reads at bar `t` (0-based):
the indicator has been fed `closes[0..t]`. -/
def smaAt (period : Nat) (closes : List ℚ) (t : Nat) : Option ℚ :=
  maValue period (maBuffer period (closes.take (t + 1)))

theorem maBuffer_append (period : Nat) (l : List ℚ) (x : ℚ) :
    maBuffer period (l ++ [x]) = maPush period (maBuffer period l) x := by
  simp [maBuffer, List.foldl_append]

theorem maBuffer_eq (period : Nat) (l : List ℚ) :
    maBuffer period l = l.drop (l.length - period) := by
  induction l using List.reverseRecOn with
  | nil => simp [maBuffer]
  | append_singleton l x ih =>
    rw [maBuffer_append, ih, maPush]
    have h1 : l.drop (l.length - period) ++ [x]
        = (l ++ [x]).drop (l.length - period) := by
      rw [List.drop_append_of_le_length (by omega)]
    rw [h1, List.drop_drop]
    congr 1
    have : (l.drop (l.length - period)).length = l.length - (l.length - period) := by
      simp
    simp only [List.length_append, List.length_drop, List.length_singleton]
    omega

/-- Closed form of the sliding-window moving average: defined exactly when at
least `period` closes have been fed (and the index is meaningful), with value
the mean of the window of the last `period` closes. -/
theorem smaAt_eq (period : Nat) (closes : List ℚ) (t : Nat) :
    smaAt period closes t =
      if period ≤ min (t + 1) closes.length then
        some (((closes.take (t + 1)).drop (min (t + 1) closes.length - period)).sum
          / (period : ℚ))
      else none := by
  have hlen : (closes.take (t + 1)).length = min (t + 1) closes.length := by
    simp
  rw [smaAt, maBuffer_eq, maValue, hlen]
  by_cases h : period ≤ min (t + 1) closes.length
  · rw [if_pos h, if_pos]
    simp only [List.length_drop, hlen]
    omega
  · rw [if_neg h, if_neg]
    simp only [List.length_drop, hlen]
    omega

/-- The indicator is warm (defined) iff `period ≤ min (t+1) closes.length`. -/
theorem smaAt_isSome_iff (period : Nat) (closes : List ℚ) (t : Nat) :
    (smaAt period closes t).isSome ↔ period ≤ min (t + 1) closes.length := by
  rw [smaAt_eq]
  by_cases h : period ≤ min (t + 1) closes.length <;> simp [h]

theorem smaAt_eq_none (period : Nat) (closes : List ℚ) (t : Nat)
    (h : ¬ period ≤ min (t + 1) closes.length) :
    smaAt period closes t = none := by
  rw [smaAt_eq, if_neg h]

theorem le_of_smaAt_eq_some {period : Nat} {closes : List ℚ} {t : Nat} {v : ℚ}
    (h : smaAt period closes t = some v) : period ≤ min (t + 1) closes.length := by
  by_contra hc
  rw [smaAt_eq_none period closes t hc] at h
  exact Option.noConfusion h

/-- On a constant price series the moving average equals that constant as
soon as it is warm. -/
theorem smaAt_const (period n : Nat) (x : ℚ) (t : Nat) (hp : 0 < period) :
    smaAt period (List.replicate n x) t =
      if period ≤ min (t + 1) n then some x else none := by
  rw [smaAt_eq]
  simp only [List.length_replicate]
  by_cases h : period ≤ min (t + 1) n
  · rw [if_pos h, if_pos h]
    rw [List.take_replicate, List.drop_replicate]
    congr 1
    rw [List.sum_replicate]
    have hper : min (t + 1) n - (min (t + 1) n - period) = period := by omega
    rw [hper, nsmul_eq_mul]
    have hne : ((period : ℚ)) ≠ 0 := by
      exact_mod_cast Nat.pos_iff_ne_zero.mp hp
    field_simp
  · rw [if_neg h, if_neg h]

/-- ABOVE / BELOW: the defined values of the short-vs-long relation. -/
inductive Rel where
  | above
  | below
deriving DecidableEq, Repr

/-- Modelled from the spec: §4.2 `CrossoverDetector.observe`.  The code in
`src/` has no crossover detector (it compares the current values directly);
this definition follows the spec's words so the claims about "crossing" can
be stated: the relation is ABOVE / BELOW on a strict inequality, UNDEFINED
(`none`) while either average is undefined, and exact equality keeps the
relation unchanged from its prior value. -/
def observeRel (pS pL : Nat) (closes : List ℚ) (t : Nat) (prev : Option Rel) :
    Option Rel :=
  match smaAt pS closes t, smaAt pL closes t with
  | some sv, some lv =>
    if lv < sv then some Rel.above
    else if sv < lv then some Rel.below
    else prev
  | _, _ => none

/-- The relation after observing bar `t` (starting from no prior relation). -/
def relationAt (pS pL : Nat) (closes : List ℚ) : Nat → Option Rel
  | 0 => observeRel pS pL closes 0 none
  | t + 1 => observeRel pS pL closes (t + 1) (relationAt pS pL closes t)

/-- The relation immediately before bar `t` is observed. -/
def relBefore (pS pL : Nat) (closes : List ℚ) : Nat → Option Rel
  | 0 => none
  | t + 1 => relationAt pS pL closes t

/-- Spec §4.2 / §8: `transitioned_to(ABOVE)` holds at bar `t` iff
`relation(t−1) = BELOW` and `relation(t) = ABOVE`, both defined. -/
def crossUp (pS pL : Nat) (closes : List ℚ) (t : Nat) : Bool :=
  relBefore pS pL closes t == some Rel.below
    && relationAt pS pL closes t == some Rel.above

/-- Likewise `transitioned_to(BELOW)`: `relation(t−1) = ABOVE` and
`relation(t) = BELOW`, both defined. -/
def crossDown (pS pL : Nat) (closes : List ℚ) (t : Nat) : Bool :=
  relBefore pS pL closes t == some Rel.above
    && relationAt pS pL closes t == some Rel.below

theorem relationAt_eq (pS pL : Nat) (closes : List ℚ) (t : Nat) :
    relationAt pS pL closes t = observeRel pS pL closes t (relBefore pS pL closes t) := by
  cases t <;> rfl

/-- The body of `MovingAverageCross.next` at bar `t` (`src/streamlit_app.py`
lines 82-101):
```
if self.ma_short[0] > self.ma_long[0]:
    if not self.position:
        message = f"BUY on {current_date} at {current_close}"
        st.session_state.messages.append(message)
        self.buy()
elif self.ma_short[0] < self.ma_long[0]:
    if self.position:
        message = f"SELL on {current_date} at {current_close}"
        st.session_state.messages.append(message)
        self.sell()
```
backtrader only calls `next()` once every indicator has its minimum period,
i.e. once both moving averages are defined (the `match` guard); per spec
§4.4 orders fill at the same bar's close, so `buy()` / `sell()` adjust the
position size by one immediately. -/
def stepBar (pS pL : Nat) (closes : List ℚ) (t : Nat) (b : PriceBar)
    (s : EngineState) : EngineState :=
  match smaAt pS closes t, smaAt pL closes t with
  | some sv, some lv =>
    if lv < sv then
      if s.pos = 0 then
        { messages := s.messages ++ [⟨b.date, Action.buy, b.close⟩],
          pos := s.pos + 1 }
      else s
    else if sv < lv then
      if s.pos = 0 then s
      else
        { messages := s.messages ++ [⟨b.date, Action.sell, b.close⟩],
          pos := s.pos - 1 }
    else s
  | _, _ => s

/-- The bar-by-bar control loop: process the remaining bars `l`, the first of
which has index `t`, starting from state `s`. -/
def runBars (pS pL : Nat) (closes : List ℚ) : Nat → List PriceBar → EngineState → EngineState
  | _, [], s => s
  | t, b :: bs, s => runBars pS pL closes (t + 1) bs (stepBar pS pL closes t b s)

/-- The close column of the feed. -/
def closesOf (bars : List PriceBar) : List ℚ :=
  bars.map PriceBar.close

/-- One `cerebro.run()`: a fresh strategy and broker (position 0) replay all
bars; `init` is the content of the session-scoped `st.session_state.messages`
list when the run starts (the code initializes it only if absent and appends
to it). -/
def runEngine (pS pL : Nat) (bars : List PriceBar) (init : List SignalEvent) :
    EngineState :=
  runBars pS pL (closesOf bars) 0 bars { messages := init, pos := 0 }

/-- The engine of the code: `MovingAverageCross` with its hard-coded periods,
`period=15` for `ma_short` and `period=30` for `ma_long`. -/
def MovingAverageCross (bars : List PriceBar) (init : List SignalEvent) :
    EngineState :=
  runEngine 15 30 bars init

/-- The engine state reached just before bar `t` is processed. -/
def engineAfter (bars : List PriceBar) (init : List SignalEvent) (t : Nat) :
    EngineState :=
  runBars 15 30 (closesOf bars) 0 (bars.take t) { messages := init, pos := 0 }

theorem stepBar_buy {pS pL : Nat} {closes : List ℚ} {t : Nat} {sv lv : ℚ}
    (b : PriceBar) (s : EngineState)
    (h15 : smaAt pS closes t = some sv) (h30 : smaAt pL closes t = some lv)
    (hlt : lv < sv) (hpos : s.pos = 0) :
    stepBar pS pL closes t b s =
      { messages := s.messages ++ [⟨b.date, Action.buy, b.close⟩], pos := s.pos + 1 } := by
  simp [stepBar, h15, h30, hlt, hpos]

theorem stepBar_hold_long {pS pL : Nat} {closes : List ℚ} {t : Nat} {sv lv : ℚ}
    (b : PriceBar) (s : EngineState)
    (h15 : smaAt pS closes t = some sv) (h30 : smaAt pL closes t = some lv)
    (hlt : lv < sv) (hpos : s.pos ≠ 0) :
    stepBar pS pL closes t b s = s := by
  simp [stepBar, h15, h30, hlt, hpos]

theorem stepBar_sell {pS pL : Nat} {closes : List ℚ} {t : Nat} {sv lv : ℚ}
    (b : PriceBar) (s : EngineState)
    (h15 : smaAt pS closes t = some sv) (h30 : smaAt pL closes t = some lv)
    (hlt : sv < lv) (hpos : s.pos ≠ 0) :
    stepBar pS pL closes t b s =
      { messages := s.messages ++ [⟨b.date, Action.sell, b.close⟩], pos := s.pos - 1 } := by
  have hnlt : ¬ lv < sv := not_lt_of_gt hlt
  simp [stepBar, h15, h30, hnlt, hlt, hpos]

theorem stepBar_hold_flat {pS pL : Nat} {closes : List ℚ} {t : Nat} {sv lv : ℚ}
    (b : PriceBar) (s : EngineState)
    (h15 : smaAt pS closes t = some sv) (h30 : smaAt pL closes t = some lv)
    (hlt : sv < lv) (hpos : s.pos = 0) :
    stepBar pS pL closes t b s = s := by
  have hnlt : ¬ lv < sv := not_lt_of_gt hlt
  simp [stepBar, h15, h30, hnlt, hlt, hpos]

theorem stepBar_tie {pS pL : Nat} {closes : List ℚ} {t : Nat} {sv lv : ℚ}
    (b : PriceBar) (s : EngineState)
    (h15 : smaAt pS closes t = some sv) (h30 : smaAt pL closes t = some lv)
    (h1 : ¬ lv < sv) (h2 : ¬ sv < lv) :
    stepBar pS pL closes t b s = s := by
  simp [stepBar, h15, h30, h1, h2]

theorem stepBar_undefS {pS pL : Nat} {closes : List ℚ} {t : Nat}
    (b : PriceBar) (s : EngineState) (h15 : smaAt pS closes t = none) :
    stepBar pS pL closes t b s = s := by
  cases h30 : smaAt pL closes t <;> simp [stepBar, h15, h30]

theorem stepBar_undefL {pS pL : Nat} {closes : List ℚ} {t : Nat}
    (b : PriceBar) (s : EngineState) (h30 : smaAt pL closes t = none) :
    stepBar pS pL closes t b s = s := by
  cases h15 : smaAt pS closes t <;> simp [stepBar, h15, h30]

theorem runBars_append (pS pL : Nat) (closes : List ℚ) (l₁ l₂ : List PriceBar) :
    ∀ (t : Nat) (s : EngineState),
      runBars pS pL closes t (l₁ ++ l₂) s
        = runBars pS pL closes (t + l₁.length) l₂ (runBars pS pL closes t l₁ s) := by
  induction l₁ with
  | nil => intro t s; simp [runBars]
  | cons b bs ih =>
    intro t s
    simp only [List.cons_append, runBars, List.length_cons, List.append_eq]
    rw [ih]
    congr 1
    omega

/-- While the long average is still warming up, `next()` does nothing
(backtrader does not even call it). -/
theorem runBars_skip (pS pL : Nat) (closes : List ℚ) :
    ∀ (l : List PriceBar) (t : Nat) (s : EngineState),
      (∀ u, t ≤ u → u < t + l.length → smaAt pL closes u = none) →
      runBars pS pL closes t l s = s := by
  intro l
  induction l with
  | nil => intro t s _; rfl
  | cons b bs ih =>
    intro t s h
    have hstep : stepBar pS pL closes t b s = s :=
      stepBar_undefL b s (h t le_rfl (by simp))
    simp only [runBars, hstep]
    exact ih (t + 1) s fun u h1 h2 => h u (by omega) (by simp; omega)

/-- The engine treats the session message list as write-only: running from a
pre-populated list appends exactly the events a run from an empty list would
produce, and reaches the same position. -/
theorem stepBar_frame (pS pL : Nat) (closes : List ℚ) (t : Nat) (b : PriceBar)
    (m : List SignalEvent) (p : Int) :
    stepBar pS pL closes t b { messages := m, pos := p }
      = { messages := m ++ (stepBar pS pL closes t b { messages := [], pos := p }).messages,
          pos := (stepBar pS pL closes t b { messages := [], pos := p }).pos } := by
  rcases h15 : smaAt pS closes t with _ | sv
  · rw [stepBar_undefS b _ h15, stepBar_undefS b _ h15]; simp
  rcases h30 : smaAt pL closes t with _ | lv
  · rw [stepBar_undefL b _ h30, stepBar_undefL b _ h30]; simp
  by_cases hup : lv < sv
  · by_cases hpos : p = 0
    · rw [stepBar_buy b _ h15 h30 hup hpos, stepBar_buy b _ h15 h30 hup hpos]
      simp
    · rw [stepBar_hold_long b _ h15 h30 hup hpos, stepBar_hold_long b _ h15 h30 hup hpos]
      simp
  by_cases hdn : sv < lv
  · by_cases hpos : p = 0
    · rw [stepBar_hold_flat b _ h15 h30 hdn hpos, stepBar_hold_flat b _ h15 h30 hdn hpos]
      simp
    · rw [stepBar_sell b _ h15 h30 hdn hpos, stepBar_sell b _ h15 h30 hdn hpos]
      simp
  · rw [stepBar_tie b _ h15 h30 hup hdn, stepBar_tie b _ h15 h30 hup hdn]
    simp

theorem runBars_frame (pS pL : Nat) (closes : List ℚ) :
    ∀ (l : List PriceBar) (t : Nat) (m : List SignalEvent) (p : Int),
      runBars pS pL closes t l { messages := m, pos := p }
        = { messages :=
              m ++ (runBars pS pL closes t l { messages := [], pos := p }).messages,
            pos := (runBars pS pL closes t l { messages := [], pos := p }).pos } := by
  intro l
  induction l with
  | nil => intro t m p; simp [runBars]
  | cons b bs ih =>
    intro t m p
    simp only [runBars]
    rw [stepBar_frame]
    rcases hstep : stepBar pS pL closes t b { messages := [], pos := p } with ⟨sm, sp⟩
    rw [ih, ih (t + 1) sm sp]
    simp

/-- The action column of a message list. -/
def actionsOf (msgs : List SignalEvent) : List Action :=
  msgs.map SignalEvent.action

/-- The BUY/SELL alternation automaton: starting from position state `long`
(`false` = flat, `true` = long), consume a list of actions; `some b` means the
list is a valid strict BUY/SELL alternation ending in position state `b`,
`none` means it is not. -/
def altRun : Bool → List Action → Option Bool
  | long, [] => some long
  | false, Action.buy :: r => altRun true r
  | true, Action.sell :: r => altRun false r
  | false, Action.sell :: _ => none
  | true, Action.buy :: _ => none

theorem altRun_append :
    ∀ (as bs : List Action) (b : Bool),
      altRun b (as ++ bs) = (altRun b as).bind fun b' => altRun b' bs := by
  intro as
  induction as with
  | nil => intro bs b; simp [altRun]
  | cons a r ih =>
    intro bs b
    cases b <;> cases a <;> simp [altRun, ih]

theorem altRun_getLast :
    ∀ (as : List Action) (b b' : Bool), altRun b as = some b' →
      (as = [] ∧ b' = b) ∨ as.getLast? = some (if b' then Action.buy else Action.sell) := by
  intro as
  induction as with
  | nil =>
    intro b b' h
    left
    refine ⟨rfl, ?_⟩
    simp only [altRun, Option.some.injEq] at h
    exact h.symm
  | cons a r ih =>
    intro b b' h
    right
    cases b <;> cases a <;> simp only [altRun] at h
    case false.sell => exact Option.noConfusion h
    case true.buy => exact Option.noConfusion h
    case false.buy =>
      rcases ih true b' h with ⟨rfl, rfl⟩ | hlast
      · simp [List.getLast?]
      · rcases r with _ | ⟨x, xs⟩
        · simp at hlast
        · rwa [List.getLast?_cons_cons]
    case true.sell =>
      rcases ih false b' h with ⟨rfl, rfl⟩ | hlast
      · simp [List.getLast?]
      · rcases r with _ | ⟨x, xs⟩
        · simp at hlast
        · rwa [List.getLast?_cons_cons]

/-- The run invariant, established just before bar `t` is processed:
the session list has only been appended to; the appended events strictly
alternate BUY/SELL from flat and end in the current position state; the
position is flat (0) or long (1), never short and never pyramided; a flat
position means the last defined relation is not ABOVE, and a long position
means it is ABOVE (and that both averages have been warm since before `t`). -/
def Inv (pS pL : Nat) (closes : List ℚ) (init : List SignalEvent) (t : Nat)
    (s : EngineState) : Prop :=
  ∃ new : List SignalEvent,
    s.messages = init ++ new ∧
    altRun false (actionsOf new) = some (decide (s.pos = 1)) ∧
    (s.pos = 0 ∨ s.pos = 1) ∧
    (s.pos = 0 → relBefore pS pL closes t ≠ some Rel.above) ∧
    (s.pos = 1 → relBefore pS pL closes t = some Rel.above ∧ pS ≤ t ∧ pL ≤ t)

theorem inv_zero (pS pL : Nat) (closes : List ℚ) (init : List SignalEvent) :
    Inv pS pL closes init 0 { messages := init, pos := 0 } := by
  refine ⟨[], by simp, by simp [actionsOf, altRun], Or.inl rfl, ?_, by simp⟩
  intro _
  simp [relBefore]

theorem inv_step {pS pL : Nat} {closes : List ℚ} {init : List SignalEvent}
    {t : Nat} {s : EngineState} (b : PriceBar)
    (hlen : t < closes.length) (h : Inv pS pL closes init t s) :
    Inv pS pL closes init (t + 1) (stepBar pS pL closes t b s) := by
  obtain ⟨new, hm, halt, hpos01, h0, h1⟩ := h
  rcases h15 : smaAt pS closes t with _ | sv
  · -- short average not warm: no-op, and the relation at t is undefined
    rw [stepBar_undefS b s h15]
    have hrel : relBefore pS pL closes (t + 1) = none := by
      rw [relBefore, relationAt_eq, observeRel, h15]
    refine ⟨new, hm, halt, hpos01, fun _ => by simp [hrel], fun hp => ?_⟩
    -- long is impossible: a long position implies the short average is warm
    obtain ⟨_, hS, _⟩ := h1 hp
    have : (smaAt pS closes t).isSome := by
      rw [smaAt_isSome_iff]
      omega
    rw [h15] at this
    exact absurd this (by simp)
  rcases h30 : smaAt pL closes t with _ | lv
  · rw [stepBar_undefL b s h30]
    have hrel : relBefore pS pL closes (t + 1) = none := by
      rw [relBefore, relationAt_eq, observeRel, h15, h30]
    refine ⟨new, hm, halt, hpos01, fun _ => by simp [hrel], fun hp => ?_⟩
    obtain ⟨_, _, hL⟩ := h1 hp
    have : (smaAt pL closes t).isSome := by
      rw [smaAt_isSome_iff]
      omega
    rw [h30] at this
    exact absurd this (by simp)
  have hSw : pS ≤ t + 1 := le_trans (le_of_smaAt_eq_some h15) (by omega)
  have hLw : pL ≤ t + 1 := le_trans (le_of_smaAt_eq_some h30) (by omega)
  by_cases hup : lv < sv
  · -- short strictly above long: relation at t is ABOVE
    have hrel : relBefore pS pL closes (t + 1) = some Rel.above := by
      rw [relBefore, relationAt_eq, observeRel, h15, h30]
      simp [hup]
    by_cases hpos : s.pos = 0
    · -- flat: BUY fires
      rw [stepBar_buy b s h15 h30 hup hpos]
      refine ⟨new ++ [⟨b.date, Action.buy, b.close⟩], by simp [hm], ?_, ?_, ?_, ?_⟩
      · have hact : actionsOf (new ++ [⟨b.date, Action.buy, b.close⟩])
            = actionsOf new ++ [Action.buy] := by simp [actionsOf]
        rw [hact, altRun_append, halt, hpos]
        simp [altRun]
      · right; simp [hpos]
      · intro hc; rw [hpos] at hc; exact absurd hc (by norm_num)
      · intro _; exact ⟨hrel, hSw, hLw⟩
    · -- already long: no-op
      rw [stepBar_hold_long b s h15 h30 hup hpos]
      exact ⟨new, hm, halt, hpos01, fun hc => absurd hc hpos,
        fun _ => ⟨hrel, hSw, hLw⟩⟩
  by_cases hdn : sv < lv
  · -- short strictly below long: relation at t is BELOW
    have hrel : relBefore pS pL closes (t + 1) = some Rel.below := by
      rw [relBefore, relationAt_eq, observeRel, h15, h30]
      simp [hup, hdn]
    by_cases hpos : s.pos = 0
    · rw [stepBar_hold_flat b s h15 h30 hdn hpos]
      refine ⟨new, hm, halt, hpos01, fun _ => by simp [hrel], fun hc => ?_⟩
      rw [hpos] at hc
      exact absurd hc (by norm_num)
    · -- long: SELL fires
      have hp1 : s.pos = 1 := hpos01.resolve_left hpos
      rw [stepBar_sell b s h15 h30 hdn hpos]
      refine ⟨new ++ [⟨b.date, Action.sell, b.close⟩], by simp [hm], ?_, ?_, ?_, ?_⟩
      · have hact : actionsOf (new ++ [⟨b.date, Action.sell, b.close⟩])
            = actionsOf new ++ [Action.sell] := by simp [actionsOf]
        rw [hact, altRun_append, halt, hp1]
        simp [altRun]
      · left; simp [hp1]
      · intro _; simp [hrel]
      · intro hc; rw [hp1] at hc; exact absurd hc (by norm_num)
  · -- exact tie: no-op, relation keeps its prior value
    rw [stepBar_tie b s h15 h30 hup hdn]
    have hrel : relBefore pS pL closes (t + 1) = relBefore pS pL closes t := by
      rw [relBefore, relationAt_eq, observeRel, h15, h30]
      simp [hup, hdn]
    exact ⟨new, hm, halt, hpos01, fun hp => by rw [hrel]; exact h0 hp,
      fun hp => by rw [hrel]; exact ⟨(h1 hp).1, hSw, hLw⟩⟩

theorem inv_run {pS pL : Nat} {closes : List ℚ} {init : List SignalEvent} :
    ∀ (l : List PriceBar) (t : Nat) (s : EngineState),
      t + l.length ≤ closes.length → Inv pS pL closes init t s →
      Inv pS pL closes init (t + l.length) (runBars pS pL closes t l s) := by
  intro l
  induction l with
  | nil => intro t s _ h; simpa [runBars] using h
  | cons b bs ih =>
    intro t s hlen h
    simp only [runBars, List.length_cons]
    simp only [List.length_cons] at hlen
    have hstep := inv_step b (by omega) h
    have := ih (t + 1) _ (by omega) hstep
    have heq : t + 1 + bs.length = t + (bs.length + 1) := by omega
    rwa [heq] at this

theorem closesOf_length (bars : List PriceBar) :
    (closesOf bars).length = bars.length := by
  simp [closesOf]

theorem inv_engineAfter (bars : List PriceBar) (init : List SignalEvent)
    (t : Nat) (ht : t ≤ bars.length) :
    Inv 15 30 (closesOf bars) init t (engineAfter bars init t) := by
  have h := @inv_run 15 30 (closesOf bars) init
    (bars.take t) 0 { messages := init, pos := 0 }
    (by simp only [closesOf_length, List.length_take, Nat.zero_add]; omega)
    (inv_zero _ _ _ _)
  rw [engineAfter]
  have hlen : (bars.take t).length = t := by
    simp only [List.length_take]
    omega
  rwa [hlen, Nat.zero_add] at h

theorem MovingAverageCross_eq_engineAfter (bars : List PriceBar)
    (init : List SignalEvent) :
    MovingAverageCross bars init = engineAfter bars init bars.length := by
  rw [MovingAverageCross, runEngine, engineAfter, List.take_length]

theorem relationAt_above_of {pS pL : Nat} {closes : List ℚ} {t : Nat} {sv lv : ℚ}
    (h15 : smaAt pS closes t = some sv) (h30 : smaAt pL closes t = some lv)
    (hup : lv < sv) : relationAt pS pL closes t = some Rel.above := by
  rw [relationAt_eq, observeRel, h15, h30]
  simp [hup]

theorem relationAt_below_of {pS pL : Nat} {closes : List ℚ} {t : Nat} {sv lv : ℚ}
    (h15 : smaAt pS closes t = some sv) (h30 : smaAt pL closes t = some lv)
    (hdn : sv < lv) : relationAt pS pL closes t = some Rel.below := by
  rw [relationAt_eq, observeRel, h15, h30]
  simp [not_lt_of_gt hdn, hdn]

theorem observeRel_eq_of_some {pS pL : Nat} {closes : List ℚ} {t : Nat}
    {sv lv : ℚ} (prev : Option Rel)
    (h15 : smaAt pS closes t = some sv) (h30 : smaAt pL closes t = some lv) :
    observeRel pS pL closes t prev =
      if lv < sv then some Rel.above
      else if sv < lv then some Rel.below
      else prev := by
  rw [observeRel, h15, h30]

theorem observeRel_eq_noneS {pS pL : Nat} {closes : List ℚ} {t : Nat}
    (prev : Option Rel) (h15 : smaAt pS closes t = none) :
    observeRel pS pL closes t prev = none := by
  rw [observeRel, h15]

theorem observeRel_eq_noneL {pS pL : Nat} {closes : List ℚ} {t : Nat}
    (prev : Option Rel) (h30 : smaAt pL closes t = none) :
    observeRel pS pL closes t prev = none := by
  cases h15 : smaAt pS closes t <;> rw [observeRel, h15, h30]

/-- A relation that just became ABOVE (it was not ABOVE before) can only come
from a strict inequality of two defined averages at this bar. -/
theorem strict_above_of_relation {pS pL : Nat} {closes : List ℚ} {t : Nat}
    (h : relationAt pS pL closes t = some Rel.above)
    (hne : relBefore pS pL closes t ≠ some Rel.above) :
    ∃ sv lv, smaAt pS closes t = some sv ∧ smaAt pL closes t = some lv ∧ lv < sv := by
  rw [relationAt_eq] at h
  rcases h15 : smaAt pS closes t with _ | sv
  · rw [observeRel_eq_noneS _ h15] at h
    exact Option.noConfusion h
  rcases h30 : smaAt pL closes t with _ | lv
  · rw [observeRel_eq_noneL _ h30] at h
    exact Option.noConfusion h
  refine ⟨sv, lv, rfl, rfl, ?_⟩
  rw [observeRel_eq_of_some _ h15 h30] at h
  by_contra hc
  rw [if_neg hc] at h
  split at h
  · simp at h
  · exact hne h

theorem strict_below_of_relation {pS pL : Nat} {closes : List ℚ} {t : Nat}
    (h : relationAt pS pL closes t = some Rel.below)
    (hne : relBefore pS pL closes t ≠ some Rel.below) :
    ∃ sv lv, smaAt pS closes t = some sv ∧ smaAt pL closes t = some lv ∧ sv < lv := by
  rw [relationAt_eq] at h
  rcases h15 : smaAt pS closes t with _ | sv
  · rw [observeRel_eq_noneS _ h15] at h
    exact Option.noConfusion h
  rcases h30 : smaAt pL closes t with _ | lv
  · rw [observeRel_eq_noneL _ h30] at h
    exact Option.noConfusion h
  refine ⟨sv, lv, rfl, rfl, ?_⟩
  rw [observeRel_eq_of_some _ h15 h30] at h
  split at h
  · simp at h
  · by_contra hc
    rw [if_neg hc] at h
    exact hne h

/-- C1 — corrected.  The claim reads: a BUY is emitted and a long position
entered iff the short average *crosses above* the long one and the position
is flat.  What the code actually tests (line 91, `self.ma_short[0] >
self.ma_long[0]`) is the current *state* of the two averages, not a
crossing: a BUY is emitted at bar `t` iff both averages are defined,
the short average is strictly above the long one, and the position is flat.
(This also fires on the very first bar at which both averages are defined —
see the counterexample — which the claim's crossover reading excludes.) -/
theorem buy_signal_iff_short_above_and_flat (pre : List PriceBar) (b : PriceBar)
    (post : List PriceBar) (init : List SignalEvent) :
    stepBar 15 30 (closesOf (pre ++ b :: post)) pre.length b
        (engineAfter (pre ++ b :: post) init pre.length)
      = { messages := (engineAfter (pre ++ b :: post) init pre.length).messages
            ++ [⟨b.date, Action.buy, b.close⟩],
          pos := 1 }
    ↔ (∃ sv lv, smaAt 15 (closesOf (pre ++ b :: post)) pre.length = some sv
          ∧ smaAt 30 (closesOf (pre ++ b :: post)) pre.length = some lv
          ∧ lv < sv)
        ∧ (engineAfter (pre ++ b :: post) init pre.length).pos = 0 := by
  constructor
  · intro heq
    rcases h15 : smaAt 15 (closesOf (pre ++ b :: post)) pre.length with _ | sv
    · rw [stepBar_undefS b _ h15] at heq
      have := congrArg (fun st => st.messages.length) heq
      simp at this
    rcases h30 : smaAt 30 (closesOf (pre ++ b :: post)) pre.length with _ | lv
    · rw [stepBar_undefL b _ h30] at heq
      have := congrArg (fun st => st.messages.length) heq
      simp at this
    by_cases hup : lv < sv
    · by_cases hpos : (engineAfter (pre ++ b :: post) init pre.length).pos = 0
      · exact ⟨⟨sv, lv, rfl, rfl, hup⟩, hpos⟩
      · rw [stepBar_hold_long b _ h15 h30 hup hpos] at heq
        have := congrArg (fun st => st.messages.length) heq
        simp at this
    by_cases hdn : sv < lv
    · by_cases hpos : (engineAfter (pre ++ b :: post) init pre.length).pos = 0
      · rw [stepBar_hold_flat b _ h15 h30 hdn hpos] at heq
        have := congrArg (fun st => st.messages.length) heq
        simp at this
      · rw [stepBar_sell b _ h15 h30 hdn hpos] at heq
        have := congrArg EngineState.messages heq
        simp at this
    · rw [stepBar_tie b _ h15 h30 hup hdn] at heq
      have := congrArg (fun st => st.messages.length) heq
      simp at this
  · rintro ⟨⟨sv, lv, h15, h30, hup⟩, hpos⟩
    rw [stepBar_buy b _ h15 h30 hup hpos, hpos]
    norm_num

/-- C2 — confirmed.  A SELL is emitted (and the position exits to flat) at
bar `t` iff the short average crosses below the long one at `t`
(`relation(t−1) = ABOVE`, `relation(t) = BELOW`) and the position is
currently long.  The code tests the current state (line 97,
`self.ma_short[0] < self.ma_long[0]`) rather than a crossing, but while the
position is long the last defined relation is always ABOVE (established as a
run invariant), so the first strictly-below bar is exactly an ABOVE→BELOW
flip.  Uses the spec-modelled CrossoverDetector and same-bar fills. -/
theorem sell_signal_iff_cross_below_and_long (pre : List PriceBar) (b : PriceBar)
    (post : List PriceBar) (init : List SignalEvent) :
    stepBar 15 30 (closesOf (pre ++ b :: post)) pre.length b
        (engineAfter (pre ++ b :: post) init pre.length)
      = { messages := (engineAfter (pre ++ b :: post) init pre.length).messages
            ++ [⟨b.date, Action.sell, b.close⟩],
          pos := 0 }
    ↔ crossDown 15 30 (closesOf (pre ++ b :: post)) pre.length = true
        ∧ (engineAfter (pre ++ b :: post) init pre.length).pos = 1 := by
  obtain ⟨new, hm, halt, hpos01, h0, h1⟩ :=
    inv_engineAfter (pre ++ b :: post) init pre.length
      (by simp only [List.length_append, List.length_cons]; omega)
  constructor
  · intro heq
    rcases h15 : smaAt 15 (closesOf (pre ++ b :: post)) pre.length with _ | sv
    · rw [stepBar_undefS b _ h15] at heq
      have := congrArg (fun st => st.messages.length) heq
      simp at this
    rcases h30 : smaAt 30 (closesOf (pre ++ b :: post)) pre.length with _ | lv
    · rw [stepBar_undefL b _ h30] at heq
      have := congrArg (fun st => st.messages.length) heq
      simp at this
    by_cases hup : lv < sv
    · by_cases hpos : (engineAfter (pre ++ b :: post) init pre.length).pos = 0
      · rw [stepBar_buy b _ h15 h30 hup hpos] at heq
        have := congrArg EngineState.messages heq
        simp at this
      · rw [stepBar_hold_long b _ h15 h30 hup hpos] at heq
        have := congrArg (fun st => st.messages.length) heq
        simp at this
    by_cases hdn : sv < lv
    · by_cases hpos : (engineAfter (pre ++ b :: post) init pre.length).pos = 0
      · rw [stepBar_hold_flat b _ h15 h30 hdn hpos] at heq
        have := congrArg (fun st => st.messages.length) heq
        simp at this
      · have hp1 : (engineAfter (pre ++ b :: post) init pre.length).pos = 1 :=
          hpos01.resolve_left hpos
        refine ⟨?_, hp1⟩
        have hrelA := (h1 hp1).1
        have hrelB := relationAt_below_of h15 h30 hdn
        simp [crossDown, hrelA, hrelB]
    · rw [stepBar_tie b _ h15 h30 hup hdn] at heq
      have := congrArg (fun st => st.messages.length) heq
      simp at this
  · rintro ⟨hcd, hp1⟩
    simp only [crossDown, Bool.and_eq_true, beq_iff_eq] at hcd
    obtain ⟨hrelA, hrelB⟩ := hcd
    obtain ⟨sv, lv, h15, h30, hdn⟩ :=
      strict_below_of_relation hrelB (by rw [hrelA]; simp)
    rw [stepBar_sell b _ h15 h30 hdn (by rw [hp1]; norm_num), hp1]
    norm_num

/-- C3 — corrected.  The claim reads: a signal is reported only on a defined
ABOVE/BELOW flip, and in particular never on the first bar at which both
averages become defined.  For SELL this holds, and for BUY it holds whenever
the prior relation is defined; but the code (a state comparison, line 91)
also emits a BUY when the relation first becomes defined as ABOVE with no
prior defined relation — exactly the extra third disjunct below, which the
counterexample instantiates. -/
theorem signal_iff_flip_or_first_above (pre : List PriceBar) (b : PriceBar)
    (post : List PriceBar) (init : List SignalEvent) :
    (stepBar 15 30 (closesOf (pre ++ b :: post)) pre.length b
        (engineAfter (pre ++ b :: post) init pre.length)).messages
      ≠ (engineAfter (pre ++ b :: post) init pre.length).messages
    ↔ (crossUp 15 30 (closesOf (pre ++ b :: post)) pre.length = true
          ∧ (engineAfter (pre ++ b :: post) init pre.length).pos = 0)
      ∨ (crossDown 15 30 (closesOf (pre ++ b :: post)) pre.length = true
          ∧ (engineAfter (pre ++ b :: post) init pre.length).pos = 1)
      ∨ (relationAt 15 30 (closesOf (pre ++ b :: post)) pre.length = some Rel.above
          ∧ relBefore 15 30 (closesOf (pre ++ b :: post)) pre.length = none
          ∧ (engineAfter (pre ++ b :: post) init pre.length).pos = 0) := by
  obtain ⟨new, hm, halt, hpos01, h0, h1⟩ :=
    inv_engineAfter (pre ++ b :: post) init pre.length
      (by simp only [List.length_append, List.length_cons]; omega)
  constructor
  · intro hne
    rcases h15 : smaAt 15 (closesOf (pre ++ b :: post)) pre.length with _ | sv
    · rw [stepBar_undefS b _ h15] at hne
      exact absurd rfl hne
    rcases h30 : smaAt 30 (closesOf (pre ++ b :: post)) pre.length with _ | lv
    · rw [stepBar_undefL b _ h30] at hne
      exact absurd rfl hne
    by_cases hup : lv < sv
    · by_cases hpos : (engineAfter (pre ++ b :: post) init pre.length).pos = 0
      · have hrelA := relationAt_above_of h15 h30 hup
        rcases hrb : relBefore 15 30 (closesOf (pre ++ b :: post)) pre.length with _ | r
        · exact Or.inr (Or.inr ⟨hrelA, rfl, hpos⟩)
        · cases r
          · exact absurd hrb (h0 hpos)
          · refine Or.inl ⟨?_, hpos⟩
            simp [crossUp, hrb, hrelA]
      · rw [stepBar_hold_long b _ h15 h30 hup hpos] at hne
        exact absurd rfl hne
    by_cases hdn : sv < lv
    · by_cases hpos : (engineAfter (pre ++ b :: post) init pre.length).pos = 0
      · rw [stepBar_hold_flat b _ h15 h30 hdn hpos] at hne
        exact absurd rfl hne
      · have hp1 : (engineAfter (pre ++ b :: post) init pre.length).pos = 1 :=
          hpos01.resolve_left hpos
        refine Or.inr (Or.inl ⟨?_, hp1⟩)
        simp [crossDown, (h1 hp1).1, relationAt_below_of h15 h30 hdn]
    · rw [stepBar_tie b _ h15 h30 hup hdn] at hne
      exact absurd rfl hne
  · intro hca
    rcases hca with ⟨hcu, hpos⟩ | ⟨hcd, hp1⟩ | ⟨hrelA, hrb, hpos⟩
    · simp only [crossUp, Bool.and_eq_true, beq_iff_eq] at hcu
      obtain ⟨hrb, hrelA⟩ := hcu
      obtain ⟨sv, lv, h15, h30, hup⟩ :=
        strict_above_of_relation hrelA (by rw [hrb]; simp)
      rw [stepBar_buy b _ h15 h30 hup hpos]
      intro hcc
      have := congrArg List.length hcc
      simp at this
    · simp only [crossDown, Bool.and_eq_true, beq_iff_eq] at hcd
      obtain ⟨hrb, hrelB⟩ := hcd
      obtain ⟨sv, lv, h15, h30, hdn⟩ :=
        strict_below_of_relation hrelB (by rw [hrb]; simp)
      rw [stepBar_sell b _ h15 h30 hdn (by rw [hp1]; norm_num)]
      intro hcc
      have := congrArg List.length hcc
      simp at this
    · obtain ⟨sv, lv, h15, h30, hup⟩ :=
        strict_above_of_relation hrelA (by rw [hrb]; simp)
      rw [stepBar_buy b _ h15 h30 hup hpos]
      intro hcc
      have := congrArg List.length hcc
      simp at this

/-- C7 — confirmed.  In a single run the emitted signal log is a strict
BUY/SELL alternation starting with BUY (so no two BUYs without an
intervening SELL and vice versa), it ends long exactly when the final
position is long, and the position is always 0 or 1 — never short, never
more than one unit. -/
theorem signal_log_alternates (bars : List PriceBar) :
    altRun false (actionsOf (MovingAverageCross bars []).messages)
        = some (decide ((MovingAverageCross bars []).pos = 1))
      ∧ ((MovingAverageCross bars []).pos = 0 ∨ (MovingAverageCross bars []).pos = 1)
      ∧ 0 ≤ (MovingAverageCross bars []).pos
      ∧ (MovingAverageCross bars []).pos ≤ 1 := by
  obtain ⟨new, hm, halt, hpos01, _, _⟩ := inv_engineAfter bars [] bars.length le_rfl
  rw [MovingAverageCross_eq_engineAfter]
  have hmsg : (engineAfter bars [] bars.length).messages = new := by simpa using hm
  refine ⟨by rw [hmsg]; exact halt, hpos01, ?_, ?_⟩ <;> omega

/-- C10 — confirmed.  After the last bar, the final position is LONG (1)
iff the run's signal log is non-empty and its last entry is a BUY; otherwise
the final position is FLAT (0). -/
theorem final_long_iff_last_buy (bars : List PriceBar) :
    ((MovingAverageCross bars []).pos = 1 ↔
        (MovingAverageCross bars []).messages ≠ []
          ∧ ((MovingAverageCross bars []).messages.getLast?).map SignalEvent.action
              = some Action.buy)
      ∧ ((MovingAverageCross bars []).pos = 0
          ∨ (MovingAverageCross bars []).pos = 1) := by
  obtain ⟨new, hm, halt, hpos01, _, _⟩ := inv_engineAfter bars [] bars.length le_rfl
  rw [MovingAverageCross_eq_engineAfter]
  have hmsg : (engineAfter bars [] bars.length).messages = new := by simpa using hm
  refine ⟨?_, hpos01⟩
  have hact : actionsOf new = new.map SignalEvent.action := rfl
  constructor
  · intro hp1
    rw [hp1] at halt
    rw [show decide ((1 : Int) = 1) = true from by decide] at halt
    rcases altRun_getLast _ _ _ halt with ⟨hnil, hword⟩ | hlast
    · exact absurd hword (by decide)
    · rw [if_pos rfl] at hlast
      rw [hact, List.getLast?_map] at hlast
      refine ⟨?_, by rw [hmsg]; exact hlast⟩
      rw [hmsg]
      rintro rfl
      simp at hlast
  · rintro ⟨hne, hlastbuy⟩
    rcases hpos01 with hp0 | hp1
    · exfalso
      rw [hp0] at halt
      rw [show decide ((0 : Int) = 1) = false from by decide] at halt
      rcases altRun_getLast _ _ _ halt with ⟨hnil, _⟩ | hlast
      · rw [hact, List.map_eq_nil_iff] at hnil
        rw [hmsg, hnil] at hne
        exact hne rfl
      · rw [if_neg (by decide)] at hlast
        rw [hact, List.getLast?_map] at hlast
        rw [hmsg] at hlastbuy
        rw [hlast] at hlastbuy
        simp at hlastbuy
    · exact hp1

theorem runEngine_init (pS pL : Nat) (bars : List PriceBar) (init : List SignalEvent) :
    runEngine pS pL bars init
      = { messages := init ++ (runEngine pS pL bars []).messages,
          pos := (runEngine pS pL bars []).pos } := by
  rw [runEngine, runEngine]
  exact runBars_frame pS pL (closesOf bars) bars 0 init 0

/-- C4 — corrected.  The claim reads: running the engine twice over an
identical price series produces an identical signal log with no accumulation
from the earlier run.  The run itself is deterministic — the second run
emits exactly the events of the first and reaches the same final position —
but the code appends them to the session-scoped `st.session_state.messages`
list, which it never clears, so after the second run the log holds two
copies of the events (see the counterexample). -/
theorem second_run_appends_same_events (bars : List PriceBar) :
    MovingAverageCross bars ((MovingAverageCross bars []).messages)
      = { messages := (MovingAverageCross bars []).messages
            ++ (MovingAverageCross bars []).messages,
          pos := (MovingAverageCross bars []).pos } := by
  simp only [MovingAverageCross]
  exact runEngine_init 15 30 bars (runEngine 15 30 bars []).messages

/-- C5 — corrected.  The claim reads: runs in the same session are fully
independent and the log produced for one run contains no entries from the
other.  The indicator and position state are indeed per-run (fresh strategy
and broker on each `cerebro.run()`), but the signal log is the shared,
session-scoped `st.session_state.messages` list: a later run appends its
events after the earlier run's entries, so the displayed log of the later
run does contain the earlier run's entries (see the counterexample). -/
theorem second_run_keeps_first_runs_entries (barsA barsB : List PriceBar) :
    MovingAverageCross barsB ((MovingAverageCross barsA []).messages)
      = { messages := (MovingAverageCross barsA []).messages
            ++ (MovingAverageCross barsB []).messages,
          pos := (MovingAverageCross barsB []).pos } := by
  simp only [MovingAverageCross]
  exact runEngine_init 15 30 barsB (runEngine 15 30 barsA []).messages

/-- Replace a bar's date, keeping its close. -/
def redateBar (f : Int → Int) (b : PriceBar) : PriceBar :=
  { date := f b.date, close := b.close }

/-- Replace an event's date, keeping action and price. -/
def redateEvent (f : Int → Int) (e : SignalEvent) : SignalEvent :=
  { date := f e.date, action := e.action, price := e.price }

theorem closesOf_map_redate (f : Int → Int) (bars : List PriceBar) :
    closesOf (bars.map (redateBar f)) = closesOf bars := by
  simp [closesOf, redateBar, Function.comp]

theorem stepBar_redate (pS pL : Nat) (closes : List ℚ) (t : Nat) (f : Int → Int)
    (b : PriceBar) (m : List SignalEvent) (p : Int) :
    stepBar pS pL closes t (redateBar f b)
        { messages := m.map (redateEvent f), pos := p }
      = { messages := (stepBar pS pL closes t b { messages := m, pos := p }).messages.map
            (redateEvent f),
          pos := (stepBar pS pL closes t b { messages := m, pos := p }).pos } := by
  rcases h15 : smaAt pS closes t with _ | sv
  · rw [stepBar_undefS _ _ h15, stepBar_undefS _ _ h15]
  rcases h30 : smaAt pL closes t with _ | lv
  · rw [stepBar_undefL _ _ h30, stepBar_undefL _ _ h30]
  by_cases hup : lv < sv
  · by_cases hpos : p = 0
    · rw [stepBar_buy _ _ h15 h30 hup hpos, stepBar_buy _ _ h15 h30 hup hpos]
      simp [redateBar, redateEvent]
    · rw [stepBar_hold_long _ _ h15 h30 hup hpos, stepBar_hold_long _ _ h15 h30 hup hpos]
  by_cases hdn : sv < lv
  · by_cases hpos : p = 0
    · rw [stepBar_hold_flat _ _ h15 h30 hdn hpos, stepBar_hold_flat _ _ h15 h30 hdn hpos]
    · rw [stepBar_sell _ _ h15 h30 hdn hpos, stepBar_sell _ _ h15 h30 hdn hpos]
      simp [redateBar, redateEvent]
  · rw [stepBar_tie _ _ h15 h30 hup hdn, stepBar_tie _ _ h15 h30 hup hdn]

theorem runBars_redate (pS pL : Nat) (closes : List ℚ) (f : Int → Int) :
    ∀ (l : List PriceBar) (t : Nat) (m : List SignalEvent) (p : Int),
      runBars pS pL closes t (l.map (redateBar f))
          { messages := m.map (redateEvent f), pos := p }
        = { messages :=
              (runBars pS pL closes t l { messages := m, pos := p }).messages.map
                (redateEvent f),
            pos := (runBars pS pL closes t l { messages := m, pos := p }).pos } := by
  intro l
  induction l with
  | nil => intro t m p; simp [runBars]
  | cons b bs ih =>
    intro t m p
    simp only [List.map_cons, runBars]
    rw [stepBar_redate]
    rcases hstep : stepBar pS pL closes t b { messages := m, pos := p } with ⟨sm, sp⟩
    exact ih (t + 1) sm sp

/-- C9 — corrected.  The claim reads: a series with out-of-order or
duplicate dates fails fast with a `DataIntegrityError` before any bar is
simulated.  No such validation (and no such error type) exists anywhere in
the code: the CSV feed hands the rows to the strategy in file order and the
strategy never consults the dates except to copy them into messages.
Formally, remapping the dates arbitrarily — including to out-of-order or
all-duplicate dates — changes nothing but the dates stored in the emitted
events: the same bars are simulated, the same signals produced, the same
final position reached (see the counterexample for a concrete
duplicate-date series that is simulated normally). -/
theorem run_ignores_date_order (f : Int → Int) (bars : List PriceBar) :
    MovingAverageCross (bars.map (redateBar f)) []
      = { messages := (MovingAverageCross bars []).messages.map (redateEvent f),
          pos := (MovingAverageCross bars []).pos } := by
  rw [MovingAverageCross, MovingAverageCross, runEngine, runEngine, closesOf_map_redate]
  have h := runBars_redate 15 30 (closesOf bars) f bars 0 [] 0
  simpa using h

/-- C6 — confirmed (the indicator is modelled from the spec, §4.1, since
`bt.indicators.SimpleMovingAverage` is library code).  For every period
`p + 1 ≥ 1` and every sequence of closes, after the first `t + 1` closes the
value is UNDEFINED while fewer than `p + 1` closes have been fed, and from
the `(p+1)`-th close onward it equals the arithmetic mean of the last
`p + 1` closes fed.  (The two engine instances are separate applications of
this pure function to their own periods, so they share no state by
construction.) -/
theorem movingAverage_warmup_and_mean (p : Nat) (pre : List ℚ) (c : ℚ)
    (post : List ℚ) :
    smaAt (p + 1) (pre ++ c :: post) pre.length
      = if p + 1 ≤ pre.length + 1 then
          some (((pre ++ [c]).drop (pre.length - p)).sum / ((p + 1 : Nat) : ℚ))
        else none := by
  rw [smaAt_eq]
  have hmin : min (pre.length + 1) (pre ++ c :: post).length = pre.length + 1 := by
    simp only [List.length_append, List.length_cons]
    omega
  rw [hmin]
  have htake : (pre ++ c :: post).take (pre.length + 1) = pre ++ [c] := by
    rw [show pre.length + 1 = pre.length + 1 from rfl, List.take_append]
    simp
  rw [htake]
  by_cases h : p + 1 ≤ pre.length + 1
  · rw [if_pos h, if_pos h]
    have : pre.length + 1 - (p + 1) = pre.length - p := by omega
    rw [this]
  · rw [if_neg h, if_neg h]

/-- C8 — confirmed.  On a bar where the two averages are exactly equal
nothing happens, whatever the position state: no message is appended, the
position does not change (the code's `if`/`elif` both fail), and the
spec-modelled relation keeps its prior value. -/
theorem equal_averages_noop (closes : List ℚ) (u : Nat) (v : ℚ) (b : PriceBar)
    (s : EngineState)
    (h15 : smaAt 15 closes (u + 1) = some v)
    (h30 : smaAt 30 closes (u + 1) = some v) :
    stepBar 15 30 closes (u + 1) b s = s
      ∧ relationAt 15 30 closes (u + 1) = relationAt 15 30 closes u := by
  constructor
  · exact stepBar_tie b s h15 h30 (lt_irrefl v) (lt_irrefl v)
  · rw [relationAt_eq, observeRel_eq_of_some _ h15 h30]
    rw [if_neg (lt_irrefl v), if_neg (lt_irrefl v)]
    rfl

/-- Witness for C8 at a concrete input: 31 bars of constant close 5; at bar
30 both averages are warm and equal (both are 5), and the step changes
nothing. -/
theorem equal_averages_noop_witness :
    stepBar 15 30 (List.replicate 31 (5 : ℚ)) 30 { date := 0, close := 5 }
        { messages := [], pos := 0 } = { messages := [], pos := 0 }
      ∧ relationAt 15 30 (List.replicate 31 (5 : ℚ)) 30
          = relationAt 15 30 (List.replicate 31 (5 : ℚ)) 29 :=
  equal_averages_noop (List.replicate 31 (5 : ℚ)) 29 5 { date := 0, close := 5 }
    { messages := [], pos := 0 }
    (by rw [smaAt_const 15 31 5 30 (by decide)]; simp)
    (by rw [smaAt_const 30 31 5 30 (by decide)]; simp)

theorem engineAfter_succ (bars : List PriceBar) (init : List SignalEvent)
    (t : Nat) (b : PriceBar)
    (hb : bars.take (t + 1) = bars.take t ++ [b])
    (hlen : (bars.take t).length = t) :
    engineAfter bars init (t + 1)
      = stepBar 15 30 (closesOf bars) t b (engineAfter bars init t) := by
  rw [engineAfter, hb, runBars_append, hlen]
  simp [runBars, engineAfter]

/-- A 30-bar series with dates 0..29 and closes rising 1..30: at bar 29 both
averages become defined for the first time, with the short one already above
the long one. -/
def bars30 : List PriceBar :=
  [⟨0, 1⟩, ⟨1, 2⟩, ⟨2, 3⟩, ⟨3, 4⟩, ⟨4, 5⟩, ⟨5, 6⟩, ⟨6, 7⟩, ⟨7, 8⟩, ⟨8, 9⟩,
   ⟨9, 10⟩, ⟨10, 11⟩, ⟨11, 12⟩, ⟨12, 13⟩, ⟨13, 14⟩, ⟨14, 15⟩, ⟨15, 16⟩,
   ⟨16, 17⟩, ⟨17, 18⟩, ⟨18, 19⟩, ⟨19, 20⟩, ⟨20, 21⟩, ⟨21, 22⟩, ⟨22, 23⟩,
   ⟨23, 24⟩, ⟨24, 25⟩, ⟨25, 26⟩, ⟨26, 27⟩, ⟨27, 28⟩, ⟨28, 29⟩, ⟨29, 30⟩]

/-- The close column of `bars30`. -/
def closes30 : List ℚ :=
  [1, 2, 3, 4, 5, 6, 7, 8, 9, 10, 11, 12, 13, 14, 15, 16, 17, 18, 19, 20,
   21, 22, 23, 24, 25, 26, 27, 28, 29, 30]

theorem closesOf_bars30 : closesOf bars30 = closes30 := rfl

theorem sma30_bars30_early (u : Nat) (hu : u < 29) :
    smaAt 30 closes30 u = none := by
  apply smaAt_eq_none
  rw [show closes30.length = 30 from rfl]
  omega

theorem engineAfter_bars30_29 :
    engineAfter bars30 [] 29 = { messages := [], pos := 0 } := by
  rw [engineAfter, closesOf_bars30]
  apply runBars_skip
  intro u hu1 hu2
  rw [show (bars30.take 29).length = 29 from rfl] at hu2
  exact sma30_bars30_early u (by omega)

theorem sma15_bars30_29 : smaAt 15 closes30 29 = some 23 := by
  rw [smaAt_eq]
  rw [show min (29 + 1) closes30.length = 30 from rfl]
  rw [if_pos (by norm_num)]
  rw [show (closes30.take (29 + 1)).drop (30 - 15)
      = [(16 : ℚ), 17, 18, 19, 20, 21, 22, 23, 24, 25, 26, 27, 28, 29, 30] from rfl]
  norm_num [List.sum_cons]

theorem sma30_bars30_29 : smaAt 30 closes30 29 = some (31 / 2) := by
  rw [smaAt_eq]
  rw [show min (29 + 1) closes30.length = 30 from rfl]
  rw [if_pos (by norm_num)]
  rw [show (closes30.take (29 + 1)).drop (30 - 30) = closes30 from rfl]
  rw [show closes30 = [(1 : ℚ), 2, 3, 4, 5, 6, 7, 8, 9, 10, 11, 12, 13, 14, 15,
      16, 17, 18, 19, 20, 21, 22, 23, 24, 25, 26, 27, 28, 29, 30] from rfl]
  norm_num [List.sum_cons]

theorem relationAt_bars30_28 : relationAt 15 30 closes30 28 = none := by
  rw [relationAt_eq]
  exact observeRel_eq_noneL _ (sma30_bars30_early 28 (by norm_num))

theorem stepBar_bars30_29 :
    stepBar 15 30 closes30 29 ⟨29, 30⟩ { messages := [], pos := 0 }
      = { messages := [⟨29, Action.buy, 30⟩], pos := 1 } := by
  rw [stepBar_buy _ _ sma15_bars30_29 sma30_bars30_29 (by norm_num) rfl]
  simp

theorem run_bars30 :
    MovingAverageCross bars30 []
      = { messages := [⟨29, Action.buy, 30⟩], pos := 1 } := by
  rw [MovingAverageCross_eq_engineAfter]
  rw [show bars30.length = 30 from rfl]
  rw [engineAfter_succ bars30 [] 29 ⟨29, 30⟩ rfl rfl]
  rw [engineAfter_bars30_29, closesOf_bars30, stepBar_bars30_29]

/-- Counterexample to C1 as stated: on `bars30`, at bar 29 (the first bar at
which both averages are defined) the engine emits a BUY and goes long while
flat, yet the short average has not *crossed above* the long one — there is
no BELOW→ABOVE transition (`crossUp` is false, the prior relation being
undefined).  So "BUY iff crossed above and flat" fails in the
only-if direction. -/
theorem buy_without_cross_at_first_warm_bar :
    stepBar 15 30 (closesOf bars30) 29 ⟨29, 30⟩ (engineAfter bars30 [] 29)
      = { messages := (engineAfter bars30 [] 29).messages
            ++ [⟨29, Action.buy, 30⟩],
          pos := 1 }
    ∧ (engineAfter bars30 [] 29).pos = 0
    ∧ crossUp 15 30 (closesOf bars30) 29 = false := by
  rw [closesOf_bars30, engineAfter_bars30_29]
  refine ⟨?_, rfl, ?_⟩
  · rw [stepBar_bars30_29]
    simp
  · rw [crossUp]
    rw [show relBefore 15 30 closes30 29 = relationAt 15 30 closes30 28 from rfl]
    rw [relationAt_bars30_28]
    simp

/-- Counterexample to C3 as stated: on `bars30` a signal (the BUY at bar 29,
date 29) is reported although the relation at bar 28 is undefined — there is
no defined ABOVE/BELOW flip anywhere (`crossUp` and `crossDown` are both
false at 29), contradicting "a signal is reported only on a defined
ABOVE/BELOW flip, never on the first bar at which both averages become
defined". -/
theorem signal_on_first_defined_bar :
    (MovingAverageCross bars30 []).messages = [⟨29, Action.buy, 30⟩]
    ∧ relBefore 15 30 (closesOf bars30) 29 = none
    ∧ crossUp 15 30 (closesOf bars30) 29 = false
    ∧ crossDown 15 30 (closesOf bars30) 29 = false := by
  rw [closesOf_bars30, run_bars30]
  rw [show relBefore 15 30 closes30 29 = relationAt 15 30 closes30 28 from rfl]
  rw [crossUp, crossDown]
  rw [show relBefore 15 30 closes30 29 = relationAt 15 30 closes30 28 from rfl]
  rw [relationAt_bars30_28]
  refine ⟨rfl, rfl, by simp, by simp⟩

/-- Counterexample to C4 as stated: running the engine twice over the same
series `bars30` does not reproduce the first run's log — the session list
accumulates, holding the BUY event twice after the second run. -/
theorem second_run_log_doubles :
    (MovingAverageCross bars30 []).messages = [⟨29, Action.buy, 30⟩]
    ∧ (MovingAverageCross bars30 ((MovingAverageCross bars30 []).messages)).messages
        = [⟨29, Action.buy, 30⟩, ⟨29, Action.buy, 30⟩] := by
  refine ⟨by rw [run_bars30], ?_⟩
  rw [run_bars30]
  rw [MovingAverageCross, runEngine_init]
  rw [show runEngine 15 30 bars30 [] = MovingAverageCross bars30 [] from rfl]
  rw [run_bars30]
  rfl

/-- The series `bars30` with every date shifted by 100: a second, different
request in the same session (same closes, dates 100..129). -/
def bars30Shifted : List PriceBar :=
  bars30.map (redateBar (fun d => d + 100))

theorem run_bars30Shifted :
    MovingAverageCross bars30Shifted []
      = { messages := [⟨129, Action.buy, 30⟩], pos := 1 } := by
  rw [bars30Shifted, MovingAverageCross, runEngine, closesOf_map_redate]
  have h := runBars_redate 15 30 (closesOf bars30) (fun d => d + 100) bars30 0 [] 0
  simp only [List.map_nil] at h
  rw [h]
  rw [show runBars 15 30 (closesOf bars30) 0 bars30 { messages := [], pos := 0 }
      = MovingAverageCross bars30 [] from rfl]
  rw [run_bars30]
  simp [redateEvent]

/-- Counterexample to C5 as stated: after a first run over `bars30` and a
second run over the different series `bars30Shifted` (dates 100..129), the
signal log shown for the second run still contains the first run's entry
(the event dated 29, which no bar of the second series could produce). -/
theorem session_log_mixes_runs :
    (MovingAverageCross bars30Shifted ((MovingAverageCross bars30 []).messages)).messages
      = [⟨29, Action.buy, 30⟩, ⟨129, Action.buy, 30⟩] := by
  rw [run_bars30]
  rw [MovingAverageCross, runEngine_init]
  rw [show runEngine 15 30 bars30Shifted [] = MovingAverageCross bars30Shifted [] from rfl]
  rw [run_bars30Shifted]
  rfl

/-- Counterexample to C9 as stated: give every bar of `bars30` the same date
7 — a maximally duplicate, out-of-order date column.  No `DataIntegrityError`
(or any failure) occurs: every bar is simulated, a signal log is produced
(the BUY, now dated 7) and a long position is reached. -/
theorem duplicate_dates_simulated_normally :
    MovingAverageCross (bars30.map (redateBar (fun _ => (7 : Int)))) []
      = { messages := [⟨7, Action.buy, 30⟩], pos := 1 } := by
  rw [MovingAverageCross, runEngine, closesOf_map_redate]
  have h := runBars_redate 15 30 (closesOf bars30) (fun _ => (7 : Int)) bars30 0 [] 0
  simp only [List.map_nil] at h
  rw [h]
  rw [show runBars 15 30 (closesOf bars30) 0 bars30 { messages := [], pos := 0 }
      = MovingAverageCross bars30 [] from rfl]
  rw [run_bars30]
  simp [redateEvent]

end Trading
